import Mathlib

/-!
A shallow embedding of the snapbox pattern normalization engine
(crates/snapbox/src/filter/pattern.rs) together with proofs about the
specification of that engine.

Conventions of the embedding:

* Rust strings are Lean String values; character level algorithms work on
  the underlying List Char.  All positions are character positions; the
  Rust code only ever slices at boundaries of valid UTF-8 substrings, so
  byte positions and character positions describe the same cuts.
* The Redaction Collaborator (redact, clear) lives outside the sources of
  this core, so it is embedded, following the interface contract of the
  spec, as an arbitrary pair of pure functions over text.
* Rust code that can panic is embedded as an Option returning function;
  a panic is the value Option.none.
* serde_json values are the inductive type Value below; numbers are
  modelled as integers, since the engine only ever compares them for
  equality.  Objects are insertion ordered key value lists, mirroring
  serde_json maps with the preserve_order feature that snapbox enables.
* The value wildcard token (an open brace, three dots, a close brace) is
  written with the escapes \x7b and \x7d in string literals.
-/

/-- Modelled from the spec: the Redaction Collaborator of sections 2 and 6
is not part of the sources under verification; it supplies two pure
functions over text, redact (replace recognized dynamic substrings of
actual text with placeholder tokens) and clear (strip placeholder tokens
from a pattern string).  It is embedded as an arbitrary pair of
functions. -/
structure Redactions where
  redact : String → String
  clear : String → String

/-- The empty redaction set: redact and clear leave text unchanged. -/
def noRedactions : Redactions where
  redact := fun s => s
  clear := fun s => s

/-- A redaction set that redacts every string to the fixed token K and
clears nothing; a concrete instance with a nontrivial redact function. -/
def constKRedact : Redactions where
  redact := fun _ => "K"
  clear := fun s => s

/-- Rust str strip of a leading part: drops p from the front of s and
returns the remainder, if p is a prefix of s. -/
def dropPre : List Char → List Char → Option (List Char)
  | s, [] => some s
  | [], _ :: _ => none
  | c :: s, p :: ps => if c = p then dropPre s ps else none

/-- Rust str find: the leftmost index at which needle occurs as a
contiguous part of hay. -/
def findSubIdx (needle : List Char) : List Char → Option Nat
  | [] => if (dropPre [] needle).isSome then some 0 else none
  | c :: t =>
    if (dropPre (c :: t) needle).isSome then some 0
    else (findSubIdx needle t).map (fun i => i + 1)

/-- Rust str split on the four character inline wildcard token: separators
are removed, empty sections are kept, leftmost occurrences are cut
first. -/
def splitWildGo : List Char → List Char → List (List Char)
  | '[' :: '.' :: '.' :: ']' :: rest, acc => acc.reverse :: splitWildGo rest []
  | c :: rest, acc => splitWildGo rest (c :: acc)
  | [], acc => [acc.reverse]

/-- Split a pattern line on the inline wildcard token. -/
def splitWild (s : List Char) : List (List Char) := splitWildGo s []

/-- Modelled from the spec: the Line Splitter (LinesWithTerminator of the
crate utils module, not under the sources of this core).  Per the contract
of section 6, each line keeps its terminating newline, a final line
without a newline is kept as is, the empty text has no lines, and
concatenating all lines restores the text. -/
def linesWTgo : List Char → List Char → List String
  | [], [] => []
  | [], acc => [String.mk acc.reverse]
  | c :: rest, acc =>
    if c = '\n' then String.mk ((c :: acc).reverse) :: linesWTgo rest []
    else linesWTgo rest (c :: acc)

/-- The line sequence of a text, terminators kept. -/
def linesWT (s : String) : List String := linesWTgo s.data []

/-- Concatenation of a list of strings; Rust join with the empty
separator. -/
def joinStr (l : List String) : String := l.foldr (fun a b => a ++ b) ""

/-- The loop of line_matches: consume the candidate characters against the
pattern sections.  When an interior section is not found in the remainder,
the Rust code leaves the input unchanged and continues with the next
section, which is mirrored here exactly. -/
def lmGo : List Char → List (List Char) → Bool
  | _, [] => false
  | input, sec :: rest =>
    match dropPre input sec with
    | none => false
    | some remainder =>
      match rest with
      | [] => remainder.isEmpty
      | next :: _ =>
        if next.isEmpty then lmGo [] rest
        else
          match findSubIdx next remainder with
          | some i => lmGo (remainder.drop i) rest
          | none => lmGo input rest

/-- line_matches from pattern.rs: does one candidate line satisfy one
pattern line, after clearing redactions from the pattern and splitting it
on the inline wildcard. -/
def line_matches (input pattern : String) (R : Redactions) : Bool :=
  if input == pattern then true
  else lmGo input.data (splitWild (R.clear pattern).data)

/-- is_line_elide from pattern.rs. -/
def is_line_elide (line : String) : Bool :=
  line == "...\n" || line == "..."

/-- Offset of the first line of the list accepted by line_matches against
the pattern line q. -/
def findMatchIdx (R : Redactions) (q : String) : List String → Option Nat
  | [] => none
  | l :: rest =>
    if line_matches l q R then some 0
    else (findMatchIdx R q rest).map (fun i => i + 1)

/-- The pattern directed loop of normalize_to_pattern: walks the pattern
lines, keeping the list of emitted output lines and the input cursor;
returns the emitted lines together with the final input cursor. -/
def normLoop (R : Redactions) (lines : List String) : List String → Nat → List String × Nat
  | [], idx => ([], idx)
  | p :: ps, idx =>
    if is_line_elide p then
      match ps with
      | [] => ([p], lines.length)
      | q :: _ =>
        match findMatchIdx R q (lines.drop idx) with
        | some k =>
          let r := normLoop R lines ps (idx + k)
          (p :: r.1, r.2)
        | none => ([], idx)
    else
      match lines.get? idx with
      | none => ([], idx)
      | some l =>
        if line_matches l p R then
          let r := normLoop R lines ps (idx + 1)
          (p :: r.1, r.2)
        else ([], idx)

/-- normalize_to_pattern from pattern.rs. -/
def normalize_to_pattern (input pattern : String) (R : Redactions) : String :=
  if input == pattern then input
  else
    let inputLines := linesWT (R.redact input)
    let r := normLoop R inputLines (linesWT pattern) 0
    joinStr (r.1 ++ inputLines.drop r.2)

/-- serde_json values.  Numbers are modelled as integers, since the engine
compares them only for equality; objects are insertion ordered key value
lists (serde_json with the preserve_order feature). -/
inductive Value where
  | null
  | bool (b : Bool)
  | num (n : Int)
  | str (s : String)
  | arr (elems : List Value)
  | obj (entries : List (String × Value))

mutual

/-- A computable structural size of a value, used as fuel for the fuel
indexed recursions below. -/
def valueSize : Value → Nat
  | Value.null => 1
  | Value.bool _ => 1
  | Value.num _ => 1
  | Value.str _ => 1
  | Value.arr xs => 1 + valueListSize xs
  | Value.obj xs => 1 + valueEntriesSize xs

/-- Total size of the elements of a value list. -/
def valueListSize : List Value → Nat
  | [] => 0
  | v :: rest => valueSize v + valueListSize rest

/-- Total size of the values of an entry list. -/
def valueEntriesSize : List (String × Value) → Nat
  | [] => 0
  | kv :: rest => valueSize kv.2 + valueEntriesSize rest

end

/-- Is this value the literal value wildcard token (Rust comparison of a
Value against the str constant). -/
def isValueWildcard : Value → Bool
  | Value.str s => s == "\x7b...\x7d"
  | _ => false

/-- Pairwise equality of value lists, given an equality on elements. -/
def listBeqWith (f : Value → Value → Bool) : List Value → List Value → Bool
  | [], [] => true
  | x :: xs, y :: ys => f x y && listBeqWith f xs ys
  | _, _ => false

/-- Every entry of the second list occurs, with an equal value, in the
first list (the membership half of ordered map equality). -/
def objInclWith (f : Value → Value → Bool) (ys : List (String × Value)) :
    List (String × Value) → Bool
  | [] => true
  | (k, v) :: xs =>
    (match ys.find? (fun p => p.1 == k) with
     | some p => f v p.2
     | none => false)
    && objInclWith f ys xs

/-- Structural equality of serde_json values, fuel indexed; the fuel is a
bound on the structural depth of the first argument and is never exhausted
when called through valueBeq.  Object equality is order independent (equal
length and every left entry occurs in the right), mirroring the equality
of insertion ordered maps. -/
def valueBeqF : Nat → Value → Value → Bool
  | 0, _, _ => false
  | fuel + 1, a, b =>
    match a, b with
    | Value.null, Value.null => true
    | Value.bool x, Value.bool y => x == y
    | Value.num x, Value.num y => x == y
    | Value.str x, Value.str y => x == y
    | Value.arr xs, Value.arr ys => listBeqWith (valueBeqF fuel) xs ys
    | Value.obj xs, Value.obj ys =>
      xs.length == ys.length && objInclWith (valueBeqF fuel) ys xs
    | _, _ => false

/-- Rust equality of two serde_json values. -/
def valueBeq (a b : Value) : Bool := valueBeqF (valueSize a) a b

/-- Rust slice split of the expected array on value wildcard elements:
separators are removed and empty sections kept. -/
def splitWildValGo : List Value → List Value → List (List Value)
  | [], acc => [acc.reverse]
  | v :: rest, acc =>
    if isValueWildcard v then acc.reverse :: splitWildValGo rest []
    else splitWildValGo rest (v :: acc)

/-- The sections of an expected array, split on value wildcard elements. -/
def splitWildVal (l : List Value) : List (List Value) := splitWildValGo l []

/-- get of the insertion ordered map: the first entry with the given key. -/
def mapGet (m : List (String × Value)) (k : String) : Option Value :=
  (m.find? (fun p => p.1 == k)).map (fun p => p.2)

/-- insert of the insertion ordered map: replace the value in place when
the key is present, else append the new entry at the end. -/
def mapInsert (m : List (String × Value)) (k : String) (v : Value) :
    List (String × Value) :=
  if m.any (fun p => p.1 == k) then
    m.map (fun p => if p.1 == k then (k, v) else p)
  else m ++ [(k, v)]

/-- Rust: expected.get of the key wildcard, viewed as a str, equals the
value wildcard. -/
def hasKeyWildcard (exp : List (String × Value)) : Bool :=
  match mapGet exp "..." with
  | some (Value.str s) => s == "\x7b...\x7d"
  | _ => false

/-- Pairwise normalization of an actual slice against an expected section
(the zip loop of the array case); f is the recursive normalizer. -/
def zipNormF (f : Value → Value → Option Value) :
    List Value → List Value → Option (List Value)
  | _, [] => some []
  | [], _ :: _ => some []
  | a :: arest, e :: erest =>
    match f a e with
    | some a2 => (zipNormF f arest erest).map (fun l => a2 :: l)
    | none => none

/-- The section loop of the array case of normalize_value_matches.  The
state is the current actual array and the processed cursor; f is the
recursive normalizer.  The out of bounds slice of a literal section and a
splice whose start exceeds its end are panics in Rust and return none
here. -/
def arrGoF (f : Value → Value → Option Value) :
    List (List Value) → List Value → Nat → Option (List Value)
  | [], act, _ => some act
  | subset :: rest, act, processed =>
    let step : Option (List Value × Nat) :=
      if subset.isEmpty then some (act, processed)
      else if processed + subset.length ≤ act.length then
        (zipNormF f ((act.drop processed).take subset.length) subset).map
          (fun normed =>
            (act.take processed ++ normed ++ act.drop (processed + subset.length),
             processed + subset.length))
      else none
    match step with
    | none => none
    | some (act1, p1) =>
      match rest with
      | [] => arrGoF f rest act1 p1
      | next :: _ =>
        match next with
        | [] =>
          if p1 ≤ act1.length then
            arrGoF f rest (act1.take p1 ++ [Value.str "\x7b...\x7d"]) (p1 + 1)
          else none
        | first :: _ =>
          match act1.findIdx? (fun v => valueBeq v first) with
          | some idx =>
            if p1 ≤ idx then
              arrGoF f rest (act1.take p1 ++ Value.str "\x7b...\x7d" :: act1.drop idx) (p1 + 1)
            else none
          | none => some act1

/-- The entry loop of the object case of normalize_value_matches: the
actual map is rebuilt from an empty map, each entry reinserted under its
redacted key; f is the recursive normalizer. -/
def objGoF (R : Redactions) (f : Value → Value → Option Value)
    (exp : List (String × Value)) (hw : Bool) :
    List (String × Value) → List (String × Value) → Option (List (String × Value))
  | [], out => some (if hw then mapInsert out "..." (Value.str "\x7b...\x7d") else out)
  | (k, v) :: rest, out =>
    let rk := R.redact k
    match mapGet exp rk with
    | some ev =>
      match f v ev with
      | some v2 => objGoF R f exp hw rest (mapInsert out rk v2)
      | none => none
    | none =>
      if hw then objGoF R f exp hw rest out
      else objGoF R f exp hw rest (mapInsert out rk v)

/-- normalize_value_matches from pattern.rs, fuel indexed; the fuel is a
bound on the structural depth of the expected value and is never exhausted
when called through normVM.  The match arms are in the order of the Rust
match: any value against the value wildcard, string against string, array
against array, object against object, and everything else unchanged. -/
def normVMF (R : Redactions) : Nat → Value → Value → Option Value
  | 0, _, _ => none
  | fuel + 1, act, expv =>
    match act, expv with
    | act, Value.str e =>
      if e == "\x7b...\x7d" then some (Value.str "\x7b...\x7d")
      else
        match act with
        | Value.str a => some (Value.str (normalize_to_pattern a e R))
        | a => some a
    | Value.arr a, Value.arr e =>
      (arrGoF (normVMF R fuel) (splitWildVal e) a 0).map Value.arr
    | Value.obj a, Value.obj e =>
      (objGoF R (normVMF R fuel) e (hasKeyWildcard e) a []).map Value.obj
    | a, _ => some a

/-- normalize_value_matches from pattern.rs: none is a Rust panic, some is
the normalized value. -/
def normVM (R : Redactions) (act expv : Value) : Option Value :=
  normVMF R (valueSize expv) act expv

/-- Modelled from the spec wording of the object case (section 4.3 and the
claims): the treatment of one actual entry.  If the pattern defines an
entry for the redacted key, recursively normalize the value and keep the
entry; else drop it when wildcard key mode is enabled and keep it
unmodified otherwise. -/
def specObjEntryStep (R : Redactions) (exp : List (String × Value)) (hw : Bool)
    (out : List (String × Value)) (kv : String × Value) :
    Option (List (String × Value)) :=
  let rk := R.redact kv.1
  match mapGet exp rk with
  | some ev => (normVM R kv.2 ev).map (fun v2 => mapInsert out rk v2)
  | none => if hw then some out else some (mapInsert out rk kv.2)

/-- Modelled from the spec wording: fold the entry treatment over the
actual entries in order. -/
def specObjGo (R : Redactions) (exp : List (String × Value)) (hw : Bool) :
    List (String × Value) → List (String × Value) → Option (List (String × Value))
  | [], out => some out
  | kv :: rest, out =>
    match specObjEntryStep R exp hw out kv with
    | some out2 => specObjGo R exp hw rest out2
    | none => none

/-- Modelled from the spec wording of object against object normalization:
process each actual entry in order, then, when wildcard key mode is
enabled, reinsert the wildcard entry into the output. -/
def objectNormalizeSpec (R : Redactions) (act exp : List (String × Value)) :
    Option (List (String × Value)) :=
  (specObjGo R exp (hasKeyWildcard exp) act []).map
    (fun o => if hasKeyWildcard exp then mapInsert o "..." (Value.str "\x7b...\x7d") else o)

/-! Helper lemmas about strings, joining and line splitting. -/

theorem strMk_append (a b : List Char) : String.mk a ++ String.mk b = String.mk (a ++ b) := rfl

theorem joinStr_nil : joinStr [] = "" := rfl

theorem joinStr_cons (a : String) (l : List String) :
    joinStr (a :: l) = a ++ joinStr l := rfl

theorem strMk_data (s : String) : String.mk s.data = s := rfl

theorem str_append_empty (s : String) : s ++ "" = s := by
  cases s with
  | mk d => show String.mk (d ++ []) = String.mk d; rw [List.append_nil]

theorem str_empty_append (s : String) : "" ++ s = s := rfl

theorem str_append_assoc (a b c : String) : a ++ b ++ c = a ++ (b ++ c) := by
  cases a with
  | mk da =>
    cases b with
    | mk db =>
      cases c with
      | mk dc =>
        show String.mk (da ++ db ++ dc) = String.mk (da ++ (db ++ dc))
        rw [List.append_assoc]

theorem joinStr_append (l1 l2 : List String) :
    joinStr (l1 ++ l2) = joinStr l1 ++ joinStr l2 := by
  induction l1 with
  | nil => rw [List.nil_append, joinStr_nil, str_empty_append]
  | cons a l ih =>
    rw [List.cons_append, joinStr_cons, joinStr_cons, ih, str_append_assoc]

theorem joinStr_linesWTgo (cs : List Char) :
    ∀ acc, joinStr (linesWTgo cs acc) = String.mk (acc.reverse ++ cs) := by
  induction cs with
  | nil =>
    intro acc
    cases acc with
    | nil => rfl
    | cons c a =>
      show joinStr [String.mk ((c :: a).reverse)] = String.mk ((c :: a).reverse ++ [])
      rw [List.append_nil, joinStr_cons, joinStr_nil, str_append_empty]
  | cons c rest ih =>
    intro acc
    by_cases hc : c = '\n'
    · simp only [linesWTgo, hc, if_pos]
      rw [joinStr_cons, ih [], strMk_append]
      simp
    · simp only [linesWTgo, hc, if_neg, not_false_iff]
      rw [ih (c :: acc)]
      simp

theorem joinStr_linesWT (s : String) : joinStr (linesWT s) = s := by
  unfold linesWT
  rw [joinStr_linesWTgo s.data []]
  simp [strMk_data]

/-! Helper lemmas about findMatchIdx: the offset it returns is the
leftmost accepted one. -/

theorem bool_eq_false_of_not_true {b : Bool} (h : ¬ b = true) : b = false := by
  cases b
  · rfl
  · exact absurd rfl h

theorem findMatchIdx_some_spec (R : Redactions) (q : String) :
    ∀ (xs : List String) (k : Nat), findMatchIdx R q xs = some k →
      (∃ l, xs.get? k = some l ∧ line_matches l q R = true)
      ∧ ∀ j, j < k → ∀ l, xs.get? j = some l → line_matches l q R = false := by
  intro xs
  induction xs with
  | nil => intro k hk; simp [findMatchIdx] at hk
  | cons l rest ih =>
    intro k hk
    rw [show findMatchIdx R q (l :: rest)
        = if line_matches l q R then some 0
          else (findMatchIdx R q rest).map (fun i => i + 1) from rfl] at hk
    split at hk
    case isTrue hl =>
      cases hk
      refine ⟨⟨l, rfl, hl⟩, ?_⟩
      intro j hj
      exact absurd hj (Nat.not_lt_zero j)
    case isFalse hl =>
      obtain ⟨k0, hk0, hk1⟩ := Option.map_eq_some'.mp hk
      obtain ⟨⟨l0, hl0, hm0⟩, hlt⟩ := ih k0 hk0
      subst hk1
      refine ⟨⟨l0, hl0, hm0⟩, ?_⟩
      intro j hj l1 hl1
      cases j with
      | zero =>
        cases hl1
        exact bool_eq_false_of_not_true hl
      | succ j0 =>
        exact hlt j0 (Nat.lt_of_succ_lt_succ hj) l1 hl1

theorem findMatchIdx_none_spec (R : Redactions) (q : String) :
    ∀ (xs : List String), findMatchIdx R q xs = none →
      ∀ l, l ∈ xs → line_matches l q R = false := by
  intro xs
  induction xs with
  | nil => intro _ l hl; exact absurd hl (List.not_mem_nil l)
  | cons l0 rest ih =>
    intro hk l hl
    rw [show findMatchIdx R q (l0 :: rest)
        = if line_matches l0 q R then some 0
          else (findMatchIdx R q rest).map (fun i => i + 1) from rfl] at hk
    split at hk
    case isTrue hm => exact absurd hk (by simp)
    case isFalse hm =>
      rcases List.mem_cons.mp hl with h1 | h2
      · subst h1
        exact bool_eq_false_of_not_true hm
      · exact ih (Option.map_eq_none'.mp hk) l h2

/-! Helper lemmas about the ordered map and the object loop, used for the
claims about object normalization. -/

theorem mem_mapInsert (m : List (String × Value)) (k : String) (v : Value) :
    ∀ p, p ∈ mapInsert m k v → p ∈ m ∨ p = (k, v) := by
  intro p hp
  unfold mapInsert at hp
  split at hp
  · obtain ⟨q, hq, hfq⟩ := List.mem_map.mp hp
    split at hfq
    · exact Or.inr hfq.symm
    · exact Or.inl (hfq ▸ hq)
  · rcases List.mem_append.mp hp with h1 | h2
    · exact Or.inl h1
    · exact Or.inr (List.mem_singleton.mp h2)

theorem objGoF_keys (R : Redactions) (f : Value → Value → Option Value)
    (exp : List (String × Value)) (hw : Bool) :
    ∀ (entries out res : List (String × Value)),
      objGoF R f exp hw entries out = some res →
      ∀ k v, (k, v) ∈ res →
        (∃ k0 v0, (k0, v0) ∈ entries ∧ k = R.redact k0)
        ∨ (∃ v3, (k, v3) ∈ out)
        ∨ (k = "..." ∧ v = Value.str "\x7b...\x7d") := by
  intro entries
  induction entries with
  | nil =>
    intro out res hres k v hmem
    rw [show objGoF R f exp hw [] out
        = some (if hw then mapInsert out "..." (Value.str "\x7b...\x7d") else out)
        from rfl] at hres
    cases hres
    split at hmem
    · rcases mem_mapInsert out "..." (Value.str "\x7b...\x7d") (k, v) hmem with h1 | h2
      · exact Or.inr (Or.inl ⟨v, h1⟩)
      · refine Or.inr (Or.inr ?_)
        have h3 := congrArg Prod.fst h2
        have h4 := congrArg Prod.snd h2
        exact ⟨h3, h4⟩
    · exact Or.inr (Or.inl ⟨v, hmem⟩)
  | cons kv rest ih =>
    obtain ⟨k0, v0⟩ := kv
    intro out res hres k v hmem
    rw [show objGoF R f exp hw ((k0, v0) :: rest) out
        = (match mapGet exp (R.redact k0) with
           | some ev =>
             match f v0 ev with
             | some v2 => objGoF R f exp hw rest (mapInsert out (R.redact k0) v2)
             | none => none
           | none =>
             if hw then objGoF R f exp hw rest out
             else objGoF R f exp hw rest (mapInsert out (R.redact k0) v0))
        from rfl] at hres
    split at hres
    · rename_i ev hget
      split at hres
      · rename_i v2 hfv
        rcases ih (mapInsert out (R.redact k0) v2) res hres k v hmem with h1 | h2 | h3
        · obtain ⟨k1, v1, hk1, hk2⟩ := h1
          exact Or.inl ⟨k1, v1, List.mem_cons_of_mem _ hk1, hk2⟩
        · obtain ⟨v3, hv3⟩ := h2
          rcases mem_mapInsert out (R.redact k0) v2 (k, v3) hv3 with h4 | h5
          · exact Or.inr (Or.inl ⟨v3, h4⟩)
          · have h6 := congrArg Prod.fst h5
            exact Or.inl ⟨k0, v0, List.mem_cons_self _ _, h6⟩
        · exact Or.inr (Or.inr h3)
      · exact absurd hres (by simp)
    · rename_i hget
      have hcont : ∀ out2, objGoF R f exp hw rest out2 = some res →
          (∀ v4, (k, v4) ∈ out2 →
            (∃ k1 v1, (k1, v1) ∈ (k0, v0) :: rest ∧ k = R.redact k1)
            ∨ (∃ v3, (k, v3) ∈ out)
            ∨ (k = "..." ∧ v = Value.str "\x7b...\x7d")) →
          (∃ k1 v1, (k1, v1) ∈ (k0, v0) :: rest ∧ k = R.redact k1)
          ∨ (∃ v3, (k, v3) ∈ out)
          ∨ (k = "..." ∧ v = Value.str "\x7b...\x7d") := by
        intro out2 hres2 hout2
        rcases ih out2 res hres2 k v hmem with h1 | h2 | h3
        · obtain ⟨k1, v1, hk1, hk2⟩ := h1
          exact Or.inl ⟨k1, v1, List.mem_cons_of_mem _ hk1, hk2⟩
        · obtain ⟨v3, hv3⟩ := h2
          exact hout2 v3 hv3
        · exact Or.inr (Or.inr h3)
      split at hres
      · exact hcont out hres (fun v4 hv4 => Or.inr (Or.inl ⟨v4, hv4⟩))
      · refine hcont (mapInsert out (R.redact k0) v0) hres ?_
        intro v4 hv4
        rcases mem_mapInsert out (R.redact k0) v0 (k, v4) hv4 with h4 | h5
        · exact Or.inr (Or.inl ⟨v4, h4⟩)
        · have h6 := congrArg Prod.fst h5
          exact Or.inl ⟨k0, v0, List.mem_cons_self _ _, h6⟩

theorem str_beq_false {a b : String} (h : a ≠ b) : (a == b) = false := by
  cases hbe : a == b
  · rfl
  · exact absurd (beq_iff_eq.mp hbe) h

/-- C1: the spec promises that normalize_value_matches raises no error
condition on any input, in particular when the actual array is shorter
than a literal run of the pattern array.  The code violates this: on the
actual array [] against the pattern array [1] it takes the slice
act[0..1] of an empty vector, which panics (index out of bounds); the
embedding returns none there. -/
theorem c1_short_actual_array_panics :
    normVM noRedactions (Value.arr []) (Value.arr [Value.num 1]) = none := rfl

/-- C2: the claim (and section 4.1 of the spec) says line_matches fails
as soon as an interior section does not occur in the unconsumed remainder
of the candidate, and that no consumed part of the candidate is matched
twice.  The code violates this: matching the candidate abX against the
pattern ab[..]a[..], the interior section a does not occur in the
remainder X, yet the loop leaves its cursor unchanged, re-matches the
already consumed a, and returns true. -/
theorem c2_spurious_match_after_failed_find :
    line_matches "abX" "ab[..]a[..]" noRedactions = true := rfl

/-- C3: once normalize_to_pattern stops matching (a pattern line fails,
an elision anchor is missing, or the pattern is exhausted), every
remaining line of the (redacted) actual text from the final cursor is
appended verbatim and in order: the result is the emitted prefix followed
by precisely the corresponding suffix of the redacted actual text. -/
theorem c3_no_loss_after_divergence (input pattern : String) (R : Redactions)
    (h : input ≠ pattern) :
    ∃ acc k pre,
      normLoop R (linesWT (R.redact input)) (linesWT pattern) 0 = (acc, k)
      ∧ normalize_to_pattern input pattern R
          = joinStr acc ++ joinStr ((linesWT (R.redact input)).drop k)
      ∧ R.redact input = pre ++ joinStr ((linesWT (R.redact input)).drop k) := by
  refine ⟨(normLoop R (linesWT (R.redact input)) (linesWT pattern) 0).1,
    (normLoop R (linesWT (R.redact input)) (linesWT pattern) 0).2,
    joinStr ((linesWT (R.redact input)).take
      (normLoop R (linesWT (R.redact input)) (linesWT pattern) 0).2),
    rfl, ?_, ?_⟩
  · rw [show normalize_to_pattern input pattern R
        = (if input == pattern then input
           else
             joinStr ((normLoop R (linesWT (R.redact input)) (linesWT pattern) 0).1
               ++ (linesWT (R.redact input)).drop
                    (normLoop R (linesWT (R.redact input)) (linesWT pattern) 0).2))
        from rfl]
    rw [str_beq_false h]
    simp only [Bool.false_eq_true, if_false]
    exact joinStr_append _ _
  · rw [← joinStr_append, List.take_append_drop, joinStr_linesWT]

/-- C3 witness: a concrete immediate mismatch. -/
theorem c3_no_loss_after_divergence_witness :
    ∃ acc k pre,
      normLoop noRedactions (linesWT (noRedactions.redact "Hello\nWorld"))
          (linesWT "Goodbye\nMoon") 0 = (acc, k)
      ∧ normalize_to_pattern "Hello\nWorld" "Goodbye\nMoon" noRedactions
          = joinStr acc
            ++ joinStr ((linesWT (noRedactions.redact "Hello\nWorld")).drop k)
      ∧ noRedactions.redact "Hello\nWorld"
          = pre ++ joinStr ((linesWT (noRedactions.redact "Hello\nWorld")).drop k) :=
  c3_no_loss_after_divergence "Hello\nWorld" "Goodbye\nMoon" noRedactions (by decide)

/-- C4: the claim describes the between-runs behavior of the array case,
including that a missing anchor (no actual element at or after the cursor
equal to the first element of the next run) silently carries the
remaining actual elements through.  The code instead searches the whole
array for the leftmost equal element: on the actual array [5, 1] against
the pattern array [5, 1, wildcard, 1], the leftmost 1 sits at index 1,
before the cursor 2, and splice(2..1) panics (embedding: none); the
collapsing example of the claim is also evaluated. -/
theorem c4_anchor_before_cursor_panics :
    normVM noRedactions (Value.arr [Value.num 5, Value.num 1])
        (Value.arr [Value.num 5, Value.num 1, Value.str "\x7b...\x7d", Value.num 1])
      = none
    ∧ normVM noRedactions
        (Value.arr [Value.num 1, Value.num 2, Value.num 3, Value.num 4, Value.num 5])
        (Value.arr [Value.num 1, Value.str "\x7b...\x7d", Value.num 5])
      = some (Value.arr [Value.num 1, Value.str "\x7b...\x7d", Value.num 5]) :=
  ⟨rfl, rfl⟩

/-- C5: when the pattern line is an elision marker followed by a further
pattern line q, the loop scans forward from the current cursor for the
first actual line accepted against q; if one exists at offset k it emits
the marker once and continues against q at cursor idx plus k (so the
matched line is consumed by the next iteration); if none exists, it stops
with nothing more emitted and the cursor unchanged. -/
theorem c5_elision_minimum_run (R : Redactions) (lines : List String) (idx : Nat)
    (p q : String) (rest : List String) (hp : is_line_elide p = true) :
    (∀ k, findMatchIdx R q (lines.drop idx) = some k →
        (∃ l, (lines.drop idx).get? k = some l ∧ line_matches l q R = true)
        ∧ (∀ j, j < k → ∀ l, (lines.drop idx).get? j = some l →
            line_matches l q R = false)
        ∧ normLoop R lines (p :: q :: rest) idx
            = (p :: (normLoop R lines (q :: rest) (idx + k)).1,
               (normLoop R lines (q :: rest) (idx + k)).2))
    ∧ (findMatchIdx R q (lines.drop idx) = none →
        (∀ l, l ∈ lines.drop idx → line_matches l q R = false)
        ∧ normLoop R lines (p :: q :: rest) idx = ([], idx)) := by
  constructor
  · intro k hk
    obtain ⟨hex, hlt⟩ := findMatchIdx_some_spec R q (lines.drop idx) k hk
    refine ⟨hex, hlt, ?_⟩
    rw [show normLoop R lines (p :: q :: rest) idx
        = (if is_line_elide p then
             match findMatchIdx R q (lines.drop idx) with
             | some k2 =>
               (p :: (normLoop R lines (q :: rest) (idx + k2)).1,
                (normLoop R lines (q :: rest) (idx + k2)).2)
             | none => ([], idx)
           else
             match lines.get? idx with
             | none => ([], idx)
             | some l =>
               if line_matches l p R then
                 (p :: (normLoop R lines (q :: rest) (idx + 1)).1,
                  (normLoop R lines (q :: rest) (idx + 1)).2)
               else ([], idx))
        from rfl]
    rw [hp, hk]
    simp only [if_true]
  · intro hk
    refine ⟨findMatchIdx_none_spec R q (lines.drop idx) hk, ?_⟩
    rw [show normLoop R lines (p :: q :: rest) idx
        = (if is_line_elide p then
             match findMatchIdx R q (lines.drop idx) with
             | some k2 =>
               (p :: (normLoop R lines (q :: rest) (idx + k2)).1,
                (normLoop R lines (q :: rest) (idx + k2)).2)
             | none => ([], idx)
           else
             match lines.get? idx with
             | none => ([], idx)
             | some l =>
               if line_matches l p R then
                 (p :: (normLoop R lines (q :: rest) (idx + 1)).1,
                  (normLoop R lines (q :: rest) (idx + 1)).2)
               else ([], idx))
        from rfl]
    rw [hp, hk]
    simp only [if_true]

/-- C5 witness: elision against a later Go line, found at offset 2. -/
theorem c5_elision_minimum_run_witness :
    (∀ k, findMatchIdx noRedactions "Go" ((["A\n", "B\n", "Go"] : List String).drop 0)
        = some k →
        (∃ l, ((["A\n", "B\n", "Go"] : List String).drop 0).get? k = some l
            ∧ line_matches l "Go" noRedactions = true)
        ∧ (∀ j, j < k → ∀ l,
            ((["A\n", "B\n", "Go"] : List String).drop 0).get? j = some l →
            line_matches l "Go" noRedactions = false)
        ∧ normLoop noRedactions ["A\n", "B\n", "Go"] ("...\n" :: "Go" :: []) 0
            = ("...\n" :: (normLoop noRedactions ["A\n", "B\n", "Go"] ("Go" :: []) (0 + k)).1,
               (normLoop noRedactions ["A\n", "B\n", "Go"] ("Go" :: []) (0 + k)).2))
    ∧ (findMatchIdx noRedactions "Go" ((["A\n", "B\n", "Go"] : List String).drop 0) = none →
        (∀ l, l ∈ (["A\n", "B\n", "Go"] : List String).drop 0 →
            line_matches l "Go" noRedactions = false)
        ∧ normLoop noRedactions ["A\n", "B\n", "Go"] ("...\n" :: "Go" :: []) 0 = ([], 0)) :=
  c5_elision_minimum_run noRedactions ["A\n", "B\n", "Go"] 0 "...\n" "Go" [] rfl

/-- C7: normalizing any text against itself returns it unchanged, for any
redaction set: the fast path of normalize_to_pattern. -/
theorem c7_self_normalization (p : String) (R : Redactions) :
    normalize_to_pattern p p R = p := by
  simp [normalize_to_pattern]

/-- C8: when the last pattern line is an elision marker and iteration
reaches it, the marker is emitted exactly once, the cursor jumps to the
end of the actual lines, and nothing remains to be appended. -/
theorem c8_trailing_elision (R : Redactions) (lines : List String) (idx : Nat)
    (p : String) (hp : is_line_elide p = true) :
    normLoop R lines [p] idx = ([p], lines.length)
    ∧ lines.drop lines.length = ([] : List String) := by
  refine ⟨?_, List.drop_length lines⟩
  rw [show normLoop R lines [p] idx
      = (if is_line_elide p then ([p], lines.length)
         else
           match lines.get? idx with
           | none => ([], idx)
           | some l =>
             if line_matches l p R then
               (p :: (normLoop R lines [] (idx + 1)).1,
                (normLoop R lines [] (idx + 1)).2)
             else ([], idx))
      from rfl]
  rw [hp]
  simp only [if_true]

/-- C8 witness: a trailing elision marker with two actual lines left. -/
theorem c8_trailing_elision_witness :
    normLoop noRedactions ["A\n", "B\n"] ["..."] 0
      = (["..."], (["A\n", "B\n"] : List String).length)
    ∧ (["A\n", "B\n"] : List String).drop (["A\n", "B\n"] : List String).length
      = ([] : List String) :=
  c8_trailing_elision noRedactions ["A\n", "B\n"] 0 "..." rfl

/-- C9: every entry the object case keeps is stored under the redacted
form of its original key (or is the reinserted wildcard entry). -/
theorem c9_output_keys_redacted (R : Redactions) (act exp outl : List (String × Value))
    (h : normVM R (Value.obj act) (Value.obj exp) = some (Value.obj outl)) :
    ∀ k v, (k, v) ∈ outl →
      (∃ k0 v0, (k0, v0) ∈ act ∧ k = R.redact k0)
      ∨ (k = "..." ∧ v = Value.str "\x7b...\x7d") := by
  intro k v hm
  have hsz : valueSize (Value.obj exp) = valueEntriesSize exp + 1 := by
    simp [valueSize]
    omega
  have h2 : (objGoF R (normVMF R (valueEntriesSize exp)) exp (hasKeyWildcard exp)
      act []).map Value.obj = some (Value.obj outl) := by
    have h3 := h
    unfold normVM at h3
    rw [hsz] at h3
    exact h3
  obtain ⟨res, hres, hobj⟩ := Option.map_eq_some'.mp h2
  have h4 : res = outl := by injection hobj
  subst h4
  rcases objGoF_keys R (normVMF R (valueEntriesSize exp)) exp (hasKeyWildcard exp)
      act [] res hres k v hm with h5 | h6 | h7
  · exact Or.inl h5
  · obtain ⟨v3, hv3⟩ := h6
    exact absurd hv3 (List.not_mem_nil _)
  · exact Or.inr h7

/-- C9 witness: a redaction that maps every key to K; the kept entry of
the output carries the redacted key K, not the original key orig. -/
theorem c9_output_keys_redacted_witness :
    (∃ k0 v0, (k0, v0) ∈ [(("orig" : String), Value.num 3)]
        ∧ ("K" : String) = constKRedact.redact k0)
    ∨ (("K" : String) = "..." ∧ Value.num 3 = Value.str "\x7b...\x7d") :=
  c9_output_keys_redacted constKRedact [("orig", Value.num 3)] [] [("K", Value.num 3)]
    rfl "K" (Value.num 3) (by simp)

/-- C10: a pattern line is an elision marker exactly when it is the three
dots alone or the three dots followed by a bare newline; a CRLF
terminated dots line is not an elision marker and is handled by the
literal branch, as the two concrete normalizations show. -/
theorem c10_elide_exact_forms :
    (∀ l : String, is_line_elide l = true ↔ (l = "...\n" ∨ l = "..."))
    ∧ is_line_elide "...\r\n" = false
    ∧ normalize_to_pattern "xyz\r\n" "...\r\n" noRedactions = "xyz\r\n"
    ∧ normalize_to_pattern "xyz\n" "...\n" noRedactions = "...\n" := by
  refine ⟨?_, rfl, rfl, rfl⟩
  intro l
  unfold is_line_elide
  simp [Bool.or_eq_true, beq_iff_eq]

/-! Fuel stability of the value normalizer: any fuel at least the size of
the expected value gives the same result.  This is what makes the fuel
indexed embedding a function of the two values alone. -/

theorem one_le_valueSize (v : Value) : 1 ≤ valueSize v := by
  cases v <;> simp [valueSize]

theorem valueSize_le_listSize (x : Value) :
    ∀ (xs : List Value), x ∈ xs → valueSize x ≤ valueListSize xs := by
  intro xs
  induction xs with
  | nil => intro h; exact absurd h (List.not_mem_nil x)
  | cons y rest ih =>
    intro h
    simp only [valueListSize]
    rcases List.mem_cons.mp h with h1 | h2
    · subst h1; omega
    · have h3 := ih h2; omega

theorem valueSize_le_entriesSize (kv : String × Value) :
    ∀ (xs : List (String × Value)), kv ∈ xs → valueSize kv.2 ≤ valueEntriesSize xs := by
  intro xs
  induction xs with
  | nil => intro h; exact absurd h (List.not_mem_nil kv)
  | cons y rest ih =>
    intro h
    simp only [valueEntriesSize]
    rcases List.mem_cons.mp h with h1 | h2
    · subst h1; omega
    · have h3 := ih h2; omega

theorem mapGet_size (m : List (String × Value)) (k : String) (ev : Value)
    (h : mapGet m k = some ev) : valueSize ev ≤ valueEntriesSize m := by
  unfold mapGet at h
  obtain ⟨p, hp, hp2⟩ := Option.map_eq_some'.mp h
  have hmem := List.mem_of_find?_eq_some hp
  have h3 := valueSize_le_entriesSize p m hmem
  exact hp2 ▸ h3

theorem mem_splitWildValGo (x : Value) :
    ∀ (l acc s : List Value), s ∈ splitWildValGo l acc → x ∈ s → x ∈ acc ∨ x ∈ l := by
  intro l
  induction l with
  | nil =>
    intro acc s hs hx
    rw [show splitWildValGo [] acc = [acc.reverse] from rfl] at hs
    have h1 : s = acc.reverse := List.mem_singleton.mp hs
    subst h1
    exact Or.inl (List.mem_reverse.mp hx)
  | cons v rest ih =>
    intro acc s hs hx
    rw [show splitWildValGo (v :: rest) acc
        = (if isValueWildcard v then acc.reverse :: splitWildValGo rest []
           else splitWildValGo rest (v :: acc)) from rfl] at hs
    split at hs
    · rcases List.mem_cons.mp hs with h1 | h2
      · subst h1
        exact Or.inl (List.mem_reverse.mp hx)
      · rcases ih [] s h2 hx with h3 | h4
        · exact absurd h3 (List.not_mem_nil x)
        · exact Or.inr (List.mem_cons_of_mem v h4)
    · rcases ih (v :: acc) s hs hx with h3 | h4
      · rcases List.mem_cons.mp h3 with h5 | h6
        · subst h5
          exact Or.inr (List.mem_cons_self x rest)
        · exact Or.inl h6
      · exact Or.inr (List.mem_cons_of_mem v h4)

theorem mem_of_mem_splitWildVal (x : Value) (l s : List Value)
    (hs : s ∈ splitWildVal l) (hx : x ∈ s) : x ∈ l := by
  rcases mem_splitWildValGo x l [] s hs hx with h | h
  · exact absurd h (List.not_mem_nil x)
  · exact h

theorem zipNormF_congr (f g : Value → Value → Option Value) :
    ∀ (bs : List Value), (∀ a b, b ∈ bs → f a b = g a b) →
      ∀ (as2 : List Value), zipNormF f as2 bs = zipNormF g as2 bs := by
  intro bs
  induction bs with
  | nil => intro _ as2; cases as2 <;> rfl
  | cons b brest ih =>
    intro hfg as2
    cases as2 with
    | nil => rfl
    | cons a arest =>
      rw [show zipNormF f (a :: arest) (b :: brest)
          = (match f a b with
             | some a2 => (zipNormF f arest brest).map (fun l2 => a2 :: l2)
             | none => none) from rfl,
        show zipNormF g (a :: arest) (b :: brest)
          = (match g a b with
             | some a2 => (zipNormF g arest brest).map (fun l2 => a2 :: l2)
             | none => none) from rfl]
      rw [hfg a b (List.mem_cons_self b brest)]
      rw [ih (fun a2 b2 hb2 => hfg a2 b2 (List.mem_cons_of_mem b hb2)) arest]

theorem arrGoF_congr (f g : Value → Value → Option Value) :
    ∀ (ss : List (List Value)),
      (∀ a b, (∃ s, s ∈ ss ∧ b ∈ s) → f a b = g a b) →
      ∀ (act : List Value) (p : Nat), arrGoF f ss act p = arrGoF g ss act p := by
  intro ss
  induction ss with
  | nil => intro _ act p; rfl
  | cons subset rest ih =>
    intro hfg act p
    have hz : zipNormF f ((act.drop p).take subset.length) subset
        = zipNormF g ((act.drop p).take subset.length) subset :=
      zipNormF_congr f g subset
        (fun a b hb => hfg a b ⟨subset, List.mem_cons_self subset rest, hb⟩)
        ((act.drop p).take subset.length)
    have hih : ∀ act2 p2, arrGoF f rest act2 p2 = arrGoF g rest act2 p2 :=
      ih (fun a b hb => by
        obtain ⟨s, hs, hbs⟩ := hb
        exact hfg a b ⟨s, List.mem_cons_of_mem subset hs, hbs⟩)
    simp only [arrGoF]
    rw [hz]
    repeat' first
    | rfl
    | exact hih _ _
    | split

theorem objGoF_congr (R : Redactions) (f g : Value → Value → Option Value)
    (exp : List (String × Value)) (hw : Bool)
    (hfg : ∀ a k ev, mapGet exp k = some ev → f a ev = g a ev) :
    ∀ (entries out : List (String × Value)),
      objGoF R f exp hw entries out = objGoF R g exp hw entries out := by
  intro entries
  induction entries with
  | nil => intro _; rfl
  | cons kv rest ih =>
    obtain ⟨k0, v0⟩ := kv
    intro out
    rw [show objGoF R f exp hw ((k0, v0) :: rest) out
        = (match mapGet exp (R.redact k0) with
           | some ev =>
             match f v0 ev with
             | some v2 => objGoF R f exp hw rest (mapInsert out (R.redact k0) v2)
             | none => none
           | none =>
             if hw then objGoF R f exp hw rest out
             else objGoF R f exp hw rest (mapInsert out (R.redact k0) v0)) from rfl]
    rw [show objGoF R g exp hw ((k0, v0) :: rest) out
        = (match mapGet exp (R.redact k0) with
           | some ev =>
             match g v0 ev with
             | some v2 => objGoF R g exp hw rest (mapInsert out (R.redact k0) v2)
             | none => none
           | none =>
             if hw then objGoF R g exp hw rest out
             else objGoF R g exp hw rest (mapInsert out (R.redact k0) v0)) from rfl]
    cases hget : mapGet exp (R.redact k0) with
    | some ev =>
      show (match f v0 ev with
            | some v2 => objGoF R f exp hw rest (mapInsert out (R.redact k0) v2)
            | none => none)
          = (match g v0 ev with
             | some v2 => objGoF R g exp hw rest (mapInsert out (R.redact k0) v2)
             | none => none)
      rw [hfg v0 (R.redact k0) ev hget]
      cases hgv : g v0 ev with
      | some v2 => exact ih (mapInsert out (R.redact k0) v2)
      | none => rfl
    | none =>
      show (if hw then objGoF R f exp hw rest out
            else objGoF R f exp hw rest (mapInsert out (R.redact k0) v0))
          = (if hw then objGoF R g exp hw rest out
             else objGoF R g exp hw rest (mapInsert out (R.redact k0) v0))
      rw [ih out, ih (mapInsert out (R.redact k0) v0)]

theorem normVMF_stable (R : Redactions) :
    ∀ (n m : Nat) (a e : Value), valueSize e ≤ n → valueSize e ≤ m →
      normVMF R n a e = normVMF R m a e := by
  intro n
  induction n using Nat.strong_induction_on with
  | _ n IH =>
    intro m a e hn hm
    have h1 : 1 ≤ valueSize e := one_le_valueSize e
    cases n with
    | zero => omega
    | succ n1 =>
      cases m with
      | zero => omega
      | succ m1 =>
        cases e with
        | null => cases a <;> rfl
        | bool b => cases a <;> rfl
        | num i => cases a <;> rfl
        | str s => cases a <;> rfl
        | arr xs =>
          cases a with
          | null => rfl
          | bool b2 => rfl
          | num i2 => rfl
          | str s2 => rfl
          | obj ys => rfl
          | arr ys =>
            have hsz : valueSize (Value.arr xs) = 1 + valueListSize xs := by
              simp [valueSize]
            have hcong : arrGoF (normVMF R n1) (splitWildVal xs) ys 0
                = arrGoF (normVMF R m1) (splitWildVal xs) ys 0 := by
              apply arrGoF_congr
              intro a2 b2 hb2
              obtain ⟨s, hs, hbs⟩ := hb2
              have hbx : b2 ∈ xs := mem_of_mem_splitWildVal b2 xs s hs hbs
              have hb2sz : valueSize b2 ≤ valueListSize xs := valueSize_le_listSize b2 xs hbx
              exact IH n1 (by omega) m1 a2 b2 (by omega) (by omega)
            show (arrGoF (normVMF R n1) (splitWildVal xs) ys 0).map Value.arr
                = (arrGoF (normVMF R m1) (splitWildVal xs) ys 0).map Value.arr
            rw [hcong]
        | obj xs =>
          cases a with
          | null => rfl
          | bool b2 => rfl
          | num i2 => rfl
          | str s2 => rfl
          | arr ys => rfl
          | obj ys =>
            have hsz : valueSize (Value.obj xs) = 1 + valueEntriesSize xs := by
              simp [valueSize]
            have hcong : objGoF R (normVMF R n1) xs (hasKeyWildcard xs) ys []
                = objGoF R (normVMF R m1) xs (hasKeyWildcard xs) ys [] := by
              apply objGoF_congr
              intro a2 k2 ev hget
              have hsz2 : valueSize ev ≤ valueEntriesSize xs := mapGet_size xs k2 ev hget
              exact IH n1 (by omega) m1 a2 ev (by omega) (by omega)
            show (objGoF R (normVMF R n1) xs (hasKeyWildcard xs) ys []).map Value.obj
                = (objGoF R (normVMF R m1) xs (hasKeyWildcard xs) ys []).map Value.obj
            rw [hcong]

theorem normVMF_eq_normVM (R : Redactions) (n : Nat) (a e : Value)
    (h : valueSize e ≤ n) : normVMF R n a e = normVM R a e :=
  normVMF_stable R n (valueSize e) a e h (Nat.le_refl _)

theorem objGoF_eq_specGo (R : Redactions) (exp : List (String × Value)) (hw : Bool)
    (f : Value → Value → Option Value)
    (hf : ∀ a k ev, mapGet exp k = some ev → f a ev = normVM R a ev) :
    ∀ (entries out : List (String × Value)),
      objGoF R f exp hw entries out
        = (specObjGo R exp hw entries out).map
            (fun o => if hw then mapInsert o "..." (Value.str "\x7b...\x7d") else o) := by
  intro entries
  induction entries with
  | nil => intro out; rfl
  | cons kv rest ih =>
    obtain ⟨k0, v0⟩ := kv
    intro out
    rw [show objGoF R f exp hw ((k0, v0) :: rest) out
        = (match mapGet exp (R.redact k0) with
           | some ev =>
             match f v0 ev with
             | some v2 => objGoF R f exp hw rest (mapInsert out (R.redact k0) v2)
             | none => none
           | none =>
             if hw then objGoF R f exp hw rest out
             else objGoF R f exp hw rest (mapInsert out (R.redact k0) v0)) from rfl]
    rw [show specObjGo R exp hw ((k0, v0) :: rest) out
        = (match specObjEntryStep R exp hw out (k0, v0) with
           | some out2 => specObjGo R exp hw rest out2
           | none => none) from rfl]
    rw [show specObjEntryStep R exp hw out (k0, v0)
        = (match mapGet exp (R.redact k0) with
           | some ev => (normVM R v0 ev).map (fun v2 => mapInsert out (R.redact k0) v2)
           | none => if hw then some out else some (mapInsert out (R.redact k0) v0)) from rfl]
    cases hget : mapGet exp (R.redact k0) with
    | some ev =>
      dsimp only
      rw [hf v0 (R.redact k0) ev hget]
      cases hnv : normVM R v0 ev with
      | some v2 =>
        dsimp only [Option.map]
        exact ih (mapInsert out (R.redact k0) v2)
      | none => rfl
    | none =>
      dsimp only
      cases hw with
      | true => exact ih out
      | false => exact ih (mapInsert out (R.redact k0) v0)

/-- C6: object against object normalization agrees with the spec wording:
wildcard key mode is on exactly when the pattern has the entry from the
key wildcard to the value wildcard; entries whose redacted key has a
pattern entry are recursively normalized and kept; other entries are
dropped exactly in wildcard key mode and kept unmodified otherwise; the
wildcard entry is reinserted in wildcard key mode; and the concrete
example of the claim evaluates as stated. -/
theorem c6_object_normalization (R : Redactions) (act exp : List (String × Value)) :
    normVM R (Value.obj act) (Value.obj exp)
      = (objectNormalizeSpec R act exp).map Value.obj
    ∧ (hasKeyWildcard exp = true ↔ mapGet exp "..." = some (Value.str "\x7b...\x7d"))
    ∧ normVM noRedactions
        (Value.obj [("a", Value.num 1), ("b", Value.num 2)])
        (Value.obj [("a", Value.num 1), ("...", Value.str "\x7b...\x7d")])
        = some (Value.obj [("a", Value.num 1), ("...", Value.str "\x7b...\x7d")]) := by
  refine ⟨?_, ?_, rfl⟩
  · have hsz : valueSize (Value.obj exp) = valueEntriesSize exp + 1 := by
      have h0 : valueSize (Value.obj exp) = 1 + valueEntriesSize exp := by
        simp [valueSize]
      omega
    have h1 : normVM R (Value.obj act) (Value.obj exp)
        = (objGoF R (normVMF R (valueEntriesSize exp)) exp (hasKeyWildcard exp)
            act []).map Value.obj := by
      unfold normVM
      rw [hsz]
      rfl
    have h2 := objGoF_eq_specGo R exp (hasKeyWildcard exp)
        (normVMF R (valueEntriesSize exp))
        (fun a k ev hget =>
          normVMF_eq_normVM R (valueEntriesSize exp) a ev (mapGet_size exp k ev hget))
        act []
    rw [h1, h2]
    rfl
  · unfold hasKeyWildcard
    cases hget : mapGet exp "..." with
    | none => simp
    | some v =>
      cases v with
      | null => simp
      | bool b => simp
      | num i => simp
      | str s => simp [beq_iff_eq]
      | arr xs => simp
      | obj xs => simp
